import Mathlib

/-!
Shallow embedding of the OPERA CSLC validation-table builder
(`validation_data/CSLC_Create_Validation_Table_with_az_fm_rate.ipynb`).

The notebook pages through an S3 bucket listing (`get_matching_s3_keys`),
derives an object URL and a date token for each key, skips keys whose URL is
already in the loaded validation table, reuses or fetches a bounding-polygon
geometry per burst id, appends one row per new key, and finally drops
duplicate `(burst_id, date)` rows and sorts by `(burst_id, date)`.

External collaborators (the S3 listing API and the remote HDF5 reader) are
modelled as explicit arguments: the listing as the finite sequence of page
responses it returns, the geometry reader as a function
`Url → Except E G` (an `Except.error` models the uncaught Python exception).
-/

namespace CSLC

/-- Lexicographic (code-point) comparison of character lists; this is the
order Python/pandas use when sorting strings. -/
def charsLt : List Char → List Char → Bool
  | [], [] => false
  | [], _ :: _ => true
  | _ :: _, [] => false
  | a :: as, b :: bs => if a = b then charsLt as bs else decide (a < b)

/-- Lexicographic less-or-equal on character lists. -/
def charsLe : List Char → List Char → Bool
  | [], _ => true
  | _ :: _, [] => false
  | a :: as, b :: bs => if a = b then charsLe as bs else decide (a < b)

/-- String strict order by code points, as used by pandas `sort_values`. -/
def strLt (a b : String) : Bool := charsLt a.data b.data

/-- String less-or-equal by code points. -/
def strLe (a b : String) : Bool := charsLe a.data b.data

/-- Models Python's `s.split('/')`: cut the string at every `'/'`,
keeping empty segments.  Auxiliary recursion over the character list. -/
def splitSlashAux (cur : List Char) : List Char → List (List Char)
  | [] => [cur.reverse]
  | c :: cs => if c = '/' then cur.reverse :: splitSlashAux [] cs
               else splitSlashAux (c :: cur) cs

/-- Models Python's `key.split('/')`. -/
def splitSlash (s : String) : List String :=
  (splitSlashAux [] s.data).map String.mk

/-- Models Python's `s.endswith(suffix)`. -/
def strEndsWith (s suffix : String) : Bool :=
  suffix.data.isSuffixOf s.data

/-- Models `key.split('/')[-2]` (the date token of a CSLC key).
Python raises `IndexError` when the key has fewer than two segments;
that case is `none` here and surfaces as a `BuildError.badKey`. -/
def dateOf (key : String) : Option String :=
  let parts := splitSlash key
  if 2 ≤ parts.length then parts.get? (parts.length - 2) else none

/-- Models `f'{s3_path}/{key}'` with `s3_path = f's3://{bucket}'`. -/
def urlOf (bucket key : String) : String :=
  "s3://" ++ bucket ++ "/" ++ key

/-- One row of the validation table: columns
`burst_id, date, cslc_url, cslc_static_url, geometry` of the notebook's
`file_dict`.  `G` is the (opaque) geometry type produced by `wkt.loads`;
`cslc_static_url` is `None` throughout the observed workflow. -/
structure Record (G : Type) where
  burst_id : String
  date : String
  cslc_url : String
  cslc_static_url : Option String
  geometry : G
deriving DecidableEq

/-- One row of the burst seed file `validation_bursts` (columns
`burst_id`, `cr_network`). -/
structure Entry where
  burst_id : String
  cr_network : String
deriving DecidableEq

/-- An uncaught exception inside the per-key loop: a failed geometry
fetch/decode (`fetchFailed`) or `IndexError` from `key.split('/')[-2]`
on a key with fewer than two segments (`badKey`). -/
inductive BuildError (E : Type) where
  | fetchFailed (e : E)
  | badKey (key : String)
deriving DecidableEq

instance {E α : Type} [DecidableEq E] [DecidableEq α] : DecidableEq (Except E α) :=
  fun a b =>
    match a, b with
    | .ok x, .ok y =>
      if h : x = y then .isTrue (by rw [h]) else .isFalse (by simp [h])
    | .ok _, .error _ => .isFalse (by simp)
    | .error _, .ok _ => .isFalse (by simp)
    | .error x, .error y =>
      if h : x = y then .isTrue (by rw [h]) else .isFalse (by simp [h])

/-- Builder state: the working dataframe `validation_bursts_df` (list
position = pandas positional index, which coincides with the row label
since the frame is loaded/`ignore_index`-concatenated with a fresh
`RangeIndex`) together with the trace of URLs passed to the geometry
fetcher (for counting collaborator invocations). -/
structure BuildState (G : Type) where
  catalog : List (Record G)
  fetched : List String
deriving DecidableEq

/-- First index (and geometry) of a catalog row whose `burst_id` matches,
i.e. `geom_check = df['burst_id'] == burst_id` followed by
`next(iter(geom_check.index[geom_check]), False)`. -/
def geomReuseAux {G : Type} (i : Nat) : List (Record G) → String → Option (Nat × G)
  | [], _ => none
  | r :: rs, b =>
    if r.burst_id = b then some (i, r.geometry) else geomReuseAux (i + 1) rs b

/-- The geometry the notebook reuses for `burst_id`, if any.  Faithful to
`idx_geo = next(iter(geom_check.index[geom_check]), False)` followed by
`if idx_geo != False:`: a first match at row index `0` compares equal to
`False` in Python, so the notebook treats it as "not found" and falls
through to a fresh fetch — hence the `some (0, _) => none` case. -/
def geomReuse {G : Type} (catalog : List (Record G)) (burst_id : String) : Option G :=
  match geomReuseAux 0 catalog burst_id with
  | none => none
  | some (0, _) => none
  | some (Nat.succ _, g) => some g

/-- The body of the inner `for key in get_matching_s3_keys(...)` loop:
skip the key when its URL is already a `cslc_url` of the working table;
otherwise take `date = key.split('/')[-2]`, reuse the burst's geometry when
a usable earlier row exists, else fetch it, and append the new row
(`pd.concat(..., ignore_index=True)` = append at the end). -/
def processKey {G E : Type} (fetch : String → Except E G) (bucket : String)
    (entry : Entry) (st : BuildState G) (key : String) :
    Except (BuildError E) (BuildState G) :=
  if st.catalog.any (fun r => r.cslc_url = urlOf bucket key) then
    Except.ok st
  else
    match dateOf key with
    | none => Except.error (BuildError.badKey key)
    | some date =>
      match geomReuse st.catalog entry.burst_id with
      | some g =>
        Except.ok ⟨st.catalog ++ [⟨entry.burst_id, date, urlOf bucket key, none, g⟩],
                   st.fetched⟩
      | none =>
        match fetch (urlOf bucket key) with
        | Except.error e => Except.error (BuildError.fetchFailed e)
        | Except.ok g =>
          Except.ok ⟨st.catalog ++ [⟨entry.burst_id, date, urlOf bucket key, none, g⟩],
                     st.fetched ++ [urlOf bucket key]⟩

/-- The inner `for key in get_matching_s3_keys(...)` loop: run the per-key
body over the drained key sequence, an uncaught exception aborting the
rest. -/
def processKeys {G E : Type} (fetch : String → Except E G) (bucket : String)
    (entry : Entry) : BuildState G → List String → Except (BuildError E) (BuildState G)
  | st, [] => Except.ok st
  | st, k :: ks =>
    match processKey fetch bucket entry st k with
    | Except.error err => Except.error err
    | Except.ok st2 => processKeys fetch bucket entry st2 ks

/-- Process one seed row: drain the (already filtered and page-ordered)
listing for this burst and run the per-key body over it. -/
def processEntry {G E : Type} (fetch : String → Except E G) (bucket : String)
    (listKeys : Entry → List String) (st : BuildState G) (entry : Entry) :
    Except (BuildError E) (BuildState G) :=
  processKeys fetch bucket entry st (listKeys entry)

/-- The outer `for df_ind in df_val.index` loop over the seed entries. -/
def runEntries {G E : Type} (fetch : String → Except E G) (bucket : String)
    (listKeys : Entry → List String) : BuildState G → List Entry →
    Except (BuildError E) (BuildState G)
  | st, [] => Except.ok st
  | st, e :: es =>
    match processEntry fetch bucket listKeys st e with
    | Except.error err => Except.error err
    | Except.ok st2 => runEntries fetch bucket listKeys st2 es

/-- The dedup/sort key: the column pair `['burst_id', 'date']`. -/
def recKey {G : Type} (r : Record G) : String × String := (r.burst_id, r.date)

/-- Models `drop_duplicates(['burst_id', 'date'])`, which keeps the first
row of each `(burst_id, date)` pair in row order; `seen` is the set of
keys already kept. -/
def dropDupAux {G : Type} (seen : List (String × String)) :
    List (Record G) → List (Record G)
  | [] => []
  | r :: rs =>
    if recKey r ∈ seen then dropDupAux seen rs
    else r :: dropDupAux (recKey r :: seen) rs

/-- Models `validation_bursts_df.drop_duplicates(['burst_id', 'date'])`. -/
def dropDuplicates {G : Type} (l : List (Record G)) : List (Record G) :=
  dropDupAux [] l

/-- Row order of `sort_values(by=['burst_id', 'date'], ascending=[True, True])`:
lexicographic on the string pair (pandas compares strings by code points). -/
def recLE {G : Type} (a b : Record G) : Prop :=
  strLt a.burst_id b.burst_id = true ∨
    (a.burst_id = b.burst_id ∧ strLe a.date b.date = true)

instance {G : Type} : DecidableRel (@recLE G) := fun a b => by
  unfold recLE; infer_instance

/-- Models `sort_values(by=['burst_id', 'date'], ascending=[True, True])`.
`sort_values`' default algorithm is not stable, but it is only ever applied
after `drop_duplicates(['burst_id', 'date'])`, so the sort key is unique
per row and every comparison sort returns this same list. -/
def sortRecords {G : Type} (l : List (Record G)) : List (Record G) :=
  List.insertionSort recLE l

/-- The final cell: `drop_duplicates(['burst_id', 'date'])` then
`sort_values(by=['burst_id', 'date'], ascending=[True, True]).reset_index(drop=True)`. -/
def finalize {G : Type} (l : List (Record G)) : List (Record G) :=
  sortRecords (dropDuplicates l)

/-- The whole builder run, from the loaded table `existing` through the
nested loops to the finalized table that `to_csv` persists. -/
def buildCatalog {G E : Type} (fetch : String → Except E G) (bucket : String)
    (listKeys : Entry → List String) (entries : List Entry)
    (existing : List (Record G)) : Except (BuildError E) (List (Record G)) :=
  (runEntries fetch bucket listKeys ⟨existing, []⟩ entries).map
    (fun st => finalize st.catalog)

/-- One object entry of an S3 `list_objects_v2` response: its key and its
`LastModified` time, the latter as the epoch seconds the notebook converts
it to with `strftime('%s')`. -/
structure S3Object where
  key : String
  lastModified : Int
deriving DecidableEq

/-- One `list_objects_v2` response page.  `contents = none` models a
response without a `'Contents'` field (the notebook's `KeyError` break);
`nextContinuationToken = none` models the final page (missing
`'NextContinuationToken'`). -/
structure S3Page where
  contents : Option (List S3Object)
  nextContinuationToken : Option String
deriving DecidableEq

/-- The keys one page contributes: `sorted(resp['Contents'], key=last
modified)` (Python's `sorted` is stable, as is insertion sort), projected
to `obj['Key']` and filtered by `i.endswith(suffix)`. -/
def pageKeys (objs : List S3Object) (suffix : String) : List String :=
  ((List.insertionSort (fun a b => a.lastModified ≤ b.lastModified) objs).map
      S3Object.key).filter (fun k => strEndsWith k suffix)

/-- Models the generator `get_matching_s3_keys`, applied to the finite
sequence of pages the listing API returns for the requested
bucket/prefix/burst.  Each iteration takes the next response: a page
without `'Contents'` stops the drain; otherwise the page's sorted,
suffix-filtered keys are yielded, and a missing continuation token stops
the drain while a present one carries it into the next request.  The
`burst_id` parameter goes into the request prefix (hence into which pages
come back); `version_num` is accepted and documented as a filter but never
used by the body. -/
def get_matching_s3_keys (pages : List S3Page) (suffix : String)
    (burst_id version_num : String) : List String :=
  match pages with
  | [] => []
  | p :: rest =>
    match p.contents with
    | none => []
    | some objs =>
      match p.nextContinuationToken with
      | none => pageKeys objs suffix
      | some _ =>
        pageKeys objs suffix ++ get_matching_s3_keys rest suffix burst_id version_num

/-- A fatal error of the whole notebook run: the missing seed file
(`raise Exception(f'Expected burst record ... not found.')`) or an
uncaught exception from the builder loops. -/
inductive ScriptError (E : Type) where
  | seedMissing
  | build (e : BuildError E)
deriving DecidableEq

/-- The notebook's top-level flow: load the persisted table if present
(else start from the empty placeholder frame), check that the seed file
exists — raising before any listing or fetch call when it does not — then
read the seed entries, run the nested loops, and finalize.  The result is
paired with the trace of URLs passed to the geometry fetcher (empty
whenever the run aborts before reaching any fetch). -/
def runScript {G E : Type} (fetch : String → Except E G) (bucket : String)
    (listKeys : Entry → List String) (seed : Option (List Entry))
    (persisted : Option (List (Record G))) :
    Except (ScriptError E) (List (Record G)) × List String :=
  let existing := persisted.getD []
  match seed with
  | none => (Except.error ScriptError.seedMissing, [])
  | some entries =>
    match runEntries fetch bucket listKeys ⟨existing, []⟩ entries with
    | Except.error e => (Except.error (ScriptError.build e), [])
    | Except.ok st => (Except.ok (finalize st.catalog), st.fetched)

/-- The persisted table after a run: `to_csv` runs only in the final cell,
so an uncaught exception leaves the file as it was. -/
def persistedAfter {G E : Type} (persisted : Option (List (Record G)))
    (result : Except (ScriptError E) (List (Record G))) :
    Option (List (Record G)) :=
  match result with
  | Except.ok c => some c
  | Except.error _ => persisted

/-! ### Order lemmas for the code-point comparisons -/

theorem charsLt_irrefl : ∀ a : List Char, charsLt a a = false
  | [] => rfl
  | c :: cs => by simp [charsLt, charsLt_irrefl cs]

theorem charsLt_trans : ∀ {a b c : List Char},
    charsLt a b = true → charsLt b c = true → charsLt a c = true
  | [], [], _ :: _, _, _ => rfl
  | [], _ :: _, [], _, h2 => by simp [charsLt] at h2
  | [], _ :: _, _ :: _, _, _ => rfl
  | _ :: _, _, [], _, h2 => by
    cases _b : ‹List Char› <;> simp_all [charsLt]
  | a :: as, b :: bs, c :: cs, h1, h2 => by
    simp only [charsLt] at h1 h2 ⊢
    by_cases hab : a = b <;> by_cases hbc : b = c
    · subst hab; subst hbc
      simp_all
      exact charsLt_trans h1 h2
    · subst hab; simp_all
    · subst hbc; simp_all
    · simp only [if_neg hab, if_neg hbc] at h1 h2
      have hac : a < c := lt_trans (of_decide_eq_true h1) (of_decide_eq_true h2)
      have : a ≠ c := ne_of_lt hac
      simp [this, hac]

theorem charsLt_asymm : ∀ {a b : List Char},
    charsLt a b = true → charsLt b a = false
  | a, b, h => by
    by_contra hc
    have hba : charsLt b a = true := by
      cases hh : charsLt b a
      · exact absurd hh hc
      · rfl
    have := charsLt_trans h hba
    rw [charsLt_irrefl] at this
    cases this

theorem charsLt_trichotomy : ∀ a b : List Char,
    charsLt a b = true ∨ a = b ∨ charsLt b a = true
  | [], [] => Or.inr (Or.inl rfl)
  | [], _ :: _ => Or.inl rfl
  | _ :: _, [] => Or.inr (Or.inr rfl)
  | a :: as, b :: bs => by
    simp only [charsLt]
    by_cases hab : a = b
    · subst hab
      simp only [if_pos rfl]
      rcases charsLt_trichotomy as bs with h | h | h
      · exact Or.inl h
      · exact Or.inr (Or.inl (by rw [h]))
      · exact Or.inr (Or.inr h)
    · simp only [if_neg hab, if_neg (Ne.symm hab)]
      rcases lt_or_gt_of_ne hab with h | h
      · exact Or.inl (decide_eq_true h)
      · exact Or.inr (Or.inr (decide_eq_true h))

theorem charsLe_iff : ∀ {a b : List Char},
    charsLe a b = true ↔ (charsLt a b = true ∨ a = b)
  | [], [] => by simp [charsLe, charsLt]
  | [], _ :: _ => by simp [charsLe, charsLt]
  | _ :: _, [] => by simp [charsLe, charsLt]
  | a :: as, b :: bs => by
    simp only [charsLe, charsLt]
    by_cases hab : a = b
    · subst hab
      simpa using @charsLe_iff as bs
    · simp [hab]

theorem charsLe_total (a b : List Char) :
    charsLe a b = true ∨ charsLe b a = true := by
  rcases charsLt_trichotomy a b with h | h | h
  · exact Or.inl (charsLe_iff.mpr (Or.inl h))
  · exact Or.inl (charsLe_iff.mpr (Or.inr h))
  · exact Or.inr (charsLe_iff.mpr (Or.inl h))

theorem charsLe_trans {a b c : List Char}
    (h1 : charsLe a b = true) (h2 : charsLe b c = true) : charsLe a c = true := by
  rcases charsLe_iff.mp h1 with h1 | h1 <;> rcases charsLe_iff.mp h2 with h2 | h2
  · exact charsLe_iff.mpr (Or.inl (charsLt_trans h1 h2))
  · exact charsLe_iff.mpr (Or.inl (h2 ▸ h1))
  · exact charsLe_iff.mpr (Or.inl (h1 ▸ h2))
  · exact charsLe_iff.mpr (Or.inr (h1.trans h2))

theorem charsLe_antisymm {a b : List Char}
    (h1 : charsLe a b = true) (h2 : charsLe b a = true) : a = b := by
  rcases charsLe_iff.mp h1 with h1 | h1
  · rcases charsLe_iff.mp h2 with h2 | h2
    · rw [charsLt_asymm h1] at h2; cases h2
    · exact h2.symm
  · exact h1

theorem strExt {a b : String} (h : a.data = b.data) : a = b := by
  cases a; cases b; exact congrArg String.mk h

theorem strLt_asymm {a b : String} (h : strLt a b = true) : strLt b a = false :=
  charsLt_asymm h

theorem strLt_irrefl (a : String) : strLt a a = false :=
  charsLt_irrefl a.data

theorem strLt_trans {a b c : String} (h1 : strLt a b = true)
    (h2 : strLt b c = true) : strLt a c = true :=
  charsLt_trans h1 h2

theorem strLt_trichotomy (a b : String) :
    strLt a b = true ∨ a = b ∨ strLt b a = true := by
  rcases charsLt_trichotomy a.data b.data with h | h | h
  · exact Or.inl h
  · exact Or.inr (Or.inl (strExt h))
  · exact Or.inr (Or.inr h)

theorem strLe_total (a b : String) : strLe a b = true ∨ strLe b a = true :=
  charsLe_total a.data b.data

theorem strLe_trans {a b c : String} (h1 : strLe a b = true)
    (h2 : strLe b c = true) : strLe a c = true :=
  charsLe_trans h1 h2

theorem strLe_antisymm {a b : String} (h1 : strLe a b = true)
    (h2 : strLe b a = true) : a = b :=
  strExt (charsLe_antisymm h1 h2)

instance {G : Type} : IsTotal (Record G) recLE :=
  ⟨fun a b => by
    unfold recLE
    rcases strLt_trichotomy a.burst_id b.burst_id with h | h | h
    · exact Or.inl (Or.inl h)
    · rcases strLe_total a.date b.date with h2 | h2
      · exact Or.inl (Or.inr ⟨h, h2⟩)
      · exact Or.inr (Or.inr ⟨h.symm, h2⟩)
    · exact Or.inr (Or.inl h)⟩

instance {G : Type} : IsTrans (Record G) recLE :=
  ⟨fun a b c hab hbc => by
    unfold recLE at hab hbc ⊢
    rcases hab with hab | ⟨hab, hab2⟩ <;> rcases hbc with hbc | ⟨hbc, hbc2⟩
    · exact Or.inl (strLt_trans hab hbc)
    · exact Or.inl (hbc ▸ hab)
    · exact Or.inl (hab ▸ hbc)
    · exact Or.inr ⟨hab.trans hbc, strLe_trans hab2 hbc2⟩⟩

theorem recKey_eq_of_le_le {G : Type} {a b : Record G}
    (h1 : recLE a b) (h2 : recLE b a) : recKey a = recKey b := by
  unfold recLE at h1 h2
  rcases h1 with h1 | ⟨h1, h1d⟩
  · rcases h2 with h2 | ⟨h2, _⟩
    · rw [strLt_asymm h1] at h2; cases h2
    · rw [h2] at h1; rw [strLt_irrefl] at h1; cases h1
  · rcases h2 with h2 | ⟨_, h2d⟩
    · rw [h1] at h2; rw [strLt_irrefl] at h2; cases h2
    · unfold recKey
      rw [h1, strLe_antisymm h1d h2d]

/-! ### Duplicate-removal lemmas -/

/-- First row of a list with the given `(burst_id, date)` key. -/
def findByKey {G : Type} (k : String × String) (l : List (Record G)) :
    Option (Record G) :=
  l.find? (fun r => decide (recKey r = k))

theorem mem_dropDupAux {G : Type} {r : Record G} :
    ∀ {l : List (Record G)} {seen : List (String × String)},
      r ∈ dropDupAux seen l ↔
        recKey r ∉ seen ∧ findByKey (recKey r) l = some r := by
  intro l
  induction l with
  | nil => intro seen; simp [dropDupAux, findByKey]
  | cons x xs ih =>
    intro seen
    by_cases hx : recKey x ∈ seen
    · rw [dropDupAux, if_pos hx]
      by_cases hkey : recKey x = recKey r
      · constructor
        · intro hmem
          exact absurd (hkey ▸ hx) (ih.mp hmem).1
        · rintro ⟨hns, hf⟩
          unfold findByKey at hf
          rw [List.find?_cons_of_pos _ (by simpa using hkey)] at hf
          have : x = r := by injection hf
          exact absurd (this ▸ hx) hns
      · rw [ih]
        unfold findByKey
        rw [List.find?_cons_of_neg _ (by simpa using hkey)]
    · rw [dropDupAux, if_neg hx]
      by_cases hkey : recKey x = recKey r
      · simp only [List.mem_cons]
        constructor
        · rintro (rfl | hmem)
          · refine ⟨hkey ▸ hx, ?_⟩
            unfold findByKey
            rw [List.find?_cons_of_pos _ (by simp [hkey])]
          · have := ih.mp hmem
            exact absurd (by simp [hkey]) this.1
        · rintro ⟨hns, hf⟩
          unfold findByKey at hf
          rw [List.find?_cons_of_pos _ (by simpa using hkey)] at hf
          have : x = r := by injection hf
          exact Or.inl this.symm
      · simp only [List.mem_cons]
        constructor
        · rintro (rfl | hmem)
          · exact absurd rfl hkey
          · have := ih.mp hmem
            refine ⟨fun hs => this.1 (by simp [hs]), ?_⟩
            unfold findByKey
            rw [List.find?_cons_of_neg _ (by simpa using hkey)]
            exact this.2
        · rintro ⟨hns, hf⟩
          unfold findByKey at hf
          rw [List.find?_cons_of_neg _ (by simpa using hkey)] at hf
          refine Or.inr (ih.mpr ⟨?_, hf⟩)
          simp only [List.mem_cons, not_or]
          exact ⟨fun h => hkey h.symm, hns⟩

theorem mem_dropDuplicates {G : Type} {r : Record G} {l : List (Record G)} :
    r ∈ dropDuplicates l ↔ findByKey (recKey r) l = some r := by
  unfold dropDuplicates
  rw [mem_dropDupAux]
  simp

theorem pairwise_key_dropDupAux {G : Type} :
    ∀ (l : List (Record G)) (seen : List (String × String)),
      List.Pairwise (fun a b => recKey a ≠ recKey b) (dropDupAux seen l) := by
  intro l
  induction l with
  | nil => intro seen; exact List.Pairwise.nil
  | cons x xs ih =>
    intro seen
    by_cases hx : recKey x ∈ seen
    · rw [dropDupAux, if_pos hx]; exact ih seen
    · rw [dropDupAux, if_neg hx]
      refine List.Pairwise.cons ?_ (ih _)
      intro y hy
      have := (mem_dropDupAux.mp hy).1
      simp only [List.mem_cons, not_or] at this
      exact fun h => this.1 h.symm

theorem pairwise_key_dropDuplicates {G : Type} (l : List (Record G)) :
    List.Pairwise (fun a b => recKey a ≠ recKey b) (dropDuplicates l) :=
  pairwise_key_dropDupAux l []

theorem dropDupAux_eq_self {G : Type} :
    ∀ {l : List (Record G)} {seen : List (String × String)},
      (∀ r ∈ l, recKey r ∉ seen) →
      List.Pairwise (fun a b => recKey a ≠ recKey b) l →
      dropDupAux seen l = l := by
  intro l
  induction l with
  | nil => intro seen _ _; rfl
  | cons x xs ih =>
    intro seen hseen hpw
    rw [dropDupAux, if_neg (hseen x (List.mem_cons_self x xs))]
    congr 1
    refine ih ?_ hpw.of_cons
    intro r hr
    simp only [List.mem_cons, not_or]
    exact ⟨fun h => (List.pairwise_cons.mp hpw).1 r hr h.symm,
           hseen r (List.mem_cons_of_mem x hr)⟩

theorem nodup_of_pairwise_key {G : Type} {l : List (Record G)}
    (h : List.Pairwise (fun a b => recKey a ≠ recKey b) l) : l.Nodup :=
  h.imp (fun hk => fun heq => hk (heq ▸ rfl))

/-! ### Sort lemmas -/

theorem sorted_sortRecords {G : Type} (l : List (Record G)) :
    List.Sorted recLE (sortRecords l) :=
  List.sorted_insertionSort recLE l

theorem perm_sortRecords {G : Type} (l : List (Record G)) :
    List.Perm (sortRecords l) l :=
  List.perm_insertionSort recLE l

/-- Two sorted lists that are permutations of each other and have pairwise
distinct `(burst_id, date)` keys are equal: the sort key is unique per row,
so any comparison sort produces the same arrangement. -/
theorem eq_of_perm_sorted_keyNodup {G : Type} :
    ∀ {l1 l2 : List (Record G)}, List.Perm l1 l2 → List.Sorted recLE l1 →
      List.Sorted recLE l2 →
      List.Pairwise (fun a b => recKey a ≠ recKey b) l1 → l1 = l2 := by
  intro l1
  induction l1 with
  | nil =>
    intro l2 hp _ _ _
    exact (hp.nil_eq).symm ▸ rfl
  | cons a t1 ih =>
    intro l2 hp hs1 hs2 hpw
    cases l2 with
    | nil => exact absurd hp.symm (by simp)
    | cons b t2 =>
      have hab : a = b := by
        have hbmem : b ∈ a :: t1 := hp.mem_iff.mpr (List.mem_cons_self b t2)
        rcases List.mem_cons.mp hbmem with hba | hbt1
        · exact hba.symm
        · have hamem : a ∈ b :: t2 := hp.subset (List.mem_cons_self a t1)
          rcases List.mem_cons.mp hamem with hba | hat2
          · exact hba
          · have h1 : recLE a b := List.rel_of_sorted_cons hs1 b hbt1
            have h2 : recLE b a := List.rel_of_sorted_cons hs2 a hat2
            have hk := recKey_eq_of_le_le h1 h2
            exact absurd hk ((List.pairwise_cons.mp hpw).1 b hbt1)
      subst hab
      have ht : List.Perm t1 t2 := hp.cons_inv
      rw [ih ht hs1.of_cons hs2.of_cons hpw.of_cons]

/-! ### Finalize lemmas -/

theorem keyNe_symmetric {G : Type} :
    Symmetric (fun a b : Record G => recKey a ≠ recKey b) :=
  fun _ _ h => fun heq => h heq.symm

theorem pairwise_key_finalize {G : Type} (l : List (Record G)) :
    List.Pairwise (fun a b => recKey a ≠ recKey b) (finalize l) := by
  unfold finalize sortRecords
  exact (List.Perm.pairwise_iff (fun hxy => keyNe_symmetric hxy)
    (List.perm_insertionSort recLE (dropDuplicates l))).mpr
    (pairwise_key_dropDuplicates l)

theorem sorted_finalize {G : Type} (l : List (Record G)) :
    List.Sorted recLE (finalize l) :=
  List.sorted_insertionSort recLE (dropDuplicates l)

theorem mem_finalize_iff {G : Type} {r : Record G} {l : List (Record G)} :
    r ∈ finalize l ↔ r ∈ dropDuplicates l :=
  (perm_sortRecords (dropDuplicates l)).mem_iff

/-- Re-sorting the finalized table is a no-op: it is already sorted and the
sort key is unique per row. -/
theorem sortRecords_finalize {G : Type} (l : List (Record G)) :
    sortRecords (finalize l) = finalize l :=
  eq_of_perm_sorted_keyNodup (perm_sortRecords (finalize l))
    (sorted_sortRecords (finalize l)) (sorted_finalize l)
    ((List.Perm.pairwise_iff (fun hxy => keyNe_symmetric hxy)
      (perm_sortRecords (finalize l))).mpr (pairwise_key_finalize l))

/-- Finalizing twice is the same as finalizing once. -/
theorem finalize_idem {G : Type} (l : List (Record G)) :
    finalize (finalize l) = finalize l := by
  unfold finalize
  have hpw : List.Pairwise (fun a b : Record G => recKey a ≠ recKey b)
      (sortRecords (dropDuplicates l)) :=
    (List.Perm.pairwise_iff (fun hxy => keyNe_symmetric hxy)
      (perm_sortRecords (dropDuplicates l))).mpr (pairwise_key_dropDuplicates l)
  have hdd : dropDuplicates (sortRecords (dropDuplicates l))
      = sortRecords (dropDuplicates l) := by
    unfold dropDuplicates
    exact dropDupAux_eq_self (by simp) hpw
  rw [hdd]
  exact sortRecords_finalize l

/-- Every `(burst_id, date)` key present before the final dedup/sort is
still represented afterwards. -/
theorem key_surj_finalize {G : Type} {r : Record G} {l : List (Record G)}
    (hr : r ∈ l) : ∃ y ∈ finalize l, recKey y = recKey r := by
  have hsome : (l.find? (fun x => decide (recKey x = recKey r))).isSome := by
    rw [List.find?_isSome]
    exact ⟨r, hr, by simp⟩
  rcases Option.isSome_iff_exists.mp hsome with ⟨y, hy⟩
  have hykey : recKey y = recKey r := by
    have := List.find?_some hy
    simpa using this
  refine ⟨y, ?_, hykey⟩
  rw [mem_finalize_iff, mem_dropDuplicates]
  unfold findByKey
  rw [hykey]
  exact hy

/-! ### Canonical per-entry rows (proof device for order independence)

Under the preconditions of the order-independence statement (pairwise
distinct burst ids, pairwise disjoint listings, one successful geometry
per entry), the rows an entry appends depend only on the loaded table and
the entry itself, not on which other entries were processed before it.
`entryGeom` and `newRowsAux` compute those rows. -/

/-- The geometry every row appended for `burst` receives, given the loaded
table `existing` and the entry's (successfully) fetched geometry `g`:
the first existing row of the burst when its index is nonzero, else `g`. -/
def entryGeom {G : Type} (existing : List (Record G)) (burst : String) (g : G) : G :=
  match geomReuseAux 0 existing burst with
  | none => g
  | some (0, _) => g
  | some (Nat.succ _, g0) => g0

/-- The rows appended for one entry while draining its key list, given the
rows `acc` the entry has already appended. -/
def newRowsAux {G : Type} (bucket : String) (e : Entry) (γ : G)
    (existing : List (Record G)) :
    List String → List (Record G) → List (Record G)
  | [], _ => []
  | k :: ks, acc =>
    if (existing ++ acc).any (fun r => r.cslc_url = urlOf bucket k) then
      newRowsAux bucket e γ existing ks acc
    else
      (⟨e.burst_id, (dateOf k).getD "", urlOf bucket k, none, γ⟩ : Record G) ::
        newRowsAux bucket e γ existing ks
          (acc ++ [⟨e.burst_id, (dateOf k).getD "", urlOf bucket k, none, γ⟩])

theorem geomReuseAux_append_some {G : Type} {b : String} {p : Nat × G} :
    ∀ {xs : List (Record G)} {i : Nat} (ys : List (Record G)),
      geomReuseAux i xs b = some p → geomReuseAux i (xs ++ ys) b = some p := by
  intro xs
  induction xs with
  | nil => intro i ys h; cases h
  | cons r rs ih =>
    intro i ys h
    rw [geomReuseAux] at h
    rw [List.cons_append, geomReuseAux]
    by_cases hr : r.burst_id = b
    · rw [if_pos hr] at h ⊢; exact h
    · rw [if_neg hr] at h ⊢; exact ih ys h

theorem geomReuseAux_append_none {G : Type} {b : String} :
    ∀ {xs : List (Record G)} {i : Nat} (ys : List (Record G)),
      geomReuseAux i xs b = none →
      geomReuseAux i (xs ++ ys) b = geomReuseAux (i + xs.length) ys b := by
  intro xs
  induction xs with
  | nil => intro i ys _; simp [geomReuseAux]
  | cons r rs ih =>
    intro i ys h
    rw [geomReuseAux] at h
    by_cases hr : r.burst_id = b
    · rw [if_pos hr] at h; cases h
    · rw [if_neg hr] at h
      rw [List.cons_append, geomReuseAux, if_neg hr, ih ys h]
      congr 1
      simp only [List.length_cons]
      omega

theorem geomReuseAux_none_of_all {G : Type} {b : String} :
    ∀ {xs : List (Record G)} {i : Nat}, (∀ r ∈ xs, r.burst_id ≠ b) →
      geomReuseAux i xs b = none := by
  intro xs
  induction xs with
  | nil => intro i _; rfl
  | cons r rs ih =>
    intro i h
    rw [geomReuseAux, if_neg (h r (List.mem_cons_self r rs))]
    exact ih (fun x hx => h x (List.mem_cons_of_mem r hx))

/-- In a working table of the shape `existing ++ M ++ acc`, where `M` holds
rows of other bursts and `acc` the rows this entry already appended (all
with geometry `entryGeom existing burst g`), the notebook's geometry
resolution either reuses exactly `entryGeom existing burst g`, or decides
to fetch in a situation where `entryGeom existing burst g` is `g` — so the
appended row always receives `entryGeom existing burst g` when every fetch
returns `g`. -/
theorem geomReuse_ctx {G : Type} {existing M acc : List (Record G)}
    {burst : String} {g : G}
    (hM : ∀ r ∈ M, r.burst_id ≠ burst)
    (hacc : ∀ r ∈ acc, r.burst_id = burst ∧ r.geometry = entryGeom existing burst g) :
    geomReuse (existing ++ M ++ acc) burst = some (entryGeom existing burst g) ∨
      (geomReuse (existing ++ M ++ acc) burst = none ∧
        entryGeom existing burst g = g) := by
  rw [List.append_assoc]
  rcases hE : geomReuseAux 0 existing burst with _ | ⟨i, g0⟩
  · have hnone : geomReuseAux 0 (existing ++ (M ++ acc)) burst
        = geomReuseAux (0 + existing.length) (M ++ acc) burst :=
      geomReuseAux_append_none _ hE
    have hMnone : geomReuseAux (0 + existing.length) (M ++ acc) burst
        = geomReuseAux (0 + existing.length + M.length) acc burst :=
      geomReuseAux_append_none _ (geomReuseAux_none_of_all hM)
    have hγ : entryGeom existing burst g = g := by unfold entryGeom; rw [hE]
    cases acc with
    | nil =>
      right
      refine ⟨?_, hγ⟩
      unfold geomReuse
      rw [hnone, hMnone]
      rfl
    | cons a acc2 =>
      have ha := hacc a (List.mem_cons_self a acc2)
      have hfind : geomReuseAux (0 + existing.length + M.length) (a :: acc2) burst
          = some (0 + existing.length + M.length, a.geometry) := by
        rw [geomReuseAux, if_pos ha.1]
      rcases hn : 0 + existing.length + M.length with _ | n
      · right
        refine ⟨?_, hγ⟩
        unfold geomReuse
        rw [hnone, hMnone, hfind, hn]
      · left
        unfold geomReuse
        rw [hnone, hMnone, hfind, hn, ha.2]
  · have hsome : geomReuseAux 0 (existing ++ (M ++ acc)) burst = some (i, g0) :=
      geomReuseAux_append_some _ hE
    cases i with
    | zero =>
      right
      constructor
      · unfold geomReuse; rw [hsome]
      · unfold entryGeom; rw [hE]
    | succ n =>
      left
      unfold geomReuse entryGeom
      rw [hsome, hE]

/-- Draining one entry's keys from a working table `existing ++ M ++ acc`
(where `M` holds rows of other bursts whose URLs do not collide with this
entry's keys, and `acc` this entry's own earlier rows) appends exactly the
canonical rows `newRowsAux`, independently of `M`, when every fetch of the
entry's URLs succeeds with the same geometry `g` and every key has a
well-formed path. -/
theorem processKeys_ctx {G E : Type} (fetch : String → Except E G) (bucket : String)
    (e : Entry) (existing : List (Record G)) (g : G) :
    ∀ (ks : List String) (M acc : List (Record G)) (log : List String),
      (∀ k ∈ ks, fetch (urlOf bucket k) = Except.ok g) →
      (∀ k ∈ ks, (dateOf k).isSome) →
      (∀ r ∈ M, r.burst_id ≠ e.burst_id) →
      (∀ r ∈ M, ∀ k ∈ ks, r.cslc_url ≠ urlOf bucket k) →
      (∀ r ∈ acc, r.burst_id = e.burst_id ∧
        r.geometry = entryGeom existing e.burst_id g) →
      ∃ fl,
        processKeys fetch bucket e ⟨existing ++ M ++ acc, log⟩ ks
          = Except.ok ⟨existing ++ M ++
              (acc ++ newRowsAux bucket e (entryGeom existing e.burst_id g)
                existing ks acc),
              log ++ fl⟩ := by
  intro ks
  induction ks with
  | nil =>
    intro M acc log _ _ _ _ _
    exact ⟨[], by simp [processKeys, newRowsAux]⟩
  | cons k ks ih =>
    intro M acc log hf hd hMb hMu hacc
    have hanyM : M.any (fun r => decide (r.cslc_url = urlOf bucket k)) = false := by
      simp only [List.any_eq_false]
      intro r hr
      simpa using hMu r hr k (List.mem_cons_self k ks)
    have hany : (existing ++ M ++ acc).any
          (fun r => decide (r.cslc_url = urlOf bucket k))
        = (existing ++ acc).any (fun r => decide (r.cslc_url = urlOf bucket k)) := by
      simp only [List.any_append, hanyM]
      cases existing.any (fun r => decide (r.cslc_url = urlOf bucket k)) <;> simp
    have hf2 : ∀ k2 ∈ ks, fetch (urlOf bucket k2) = Except.ok g :=
      fun k2 hk2 => hf k2 (List.mem_cons_of_mem k hk2)
    have hd2 : ∀ k2 ∈ ks, (dateOf k2).isSome :=
      fun k2 hk2 => hd k2 (List.mem_cons_of_mem k hk2)
    have hMu2 : ∀ r ∈ M, ∀ k2 ∈ ks, r.cslc_url ≠ urlOf bucket k2 :=
      fun r hr k2 hk2 => hMu r hr k2 (List.mem_cons_of_mem k hk2)
    by_cases hskip :
        (existing ++ acc).any (fun r => decide (r.cslc_url = urlOf bucket k)) = true
    · have hstep : processKey fetch bucket e ⟨existing ++ M ++ acc, log⟩ k
          = Except.ok ⟨existing ++ M ++ acc, log⟩ := by
        unfold processKey
        rw [if_pos (by rw [show (⟨existing ++ M ++ acc, log⟩ : BuildState G).catalog
          = existing ++ M ++ acc from rfl, hany]; exact hskip)]
      obtain ⟨fl, hrest⟩ := ih M acc log hf2 hd2 hMb hMu2 hacc
      refine ⟨fl, ?_⟩
      rw [processKeys, hstep]
      show processKeys fetch bucket e ⟨existing ++ M ++ acc, log⟩ ks = _
      rw [hrest, newRowsAux, if_pos hskip]
    · obtain ⟨d, hdk⟩ := Option.isSome_iff_exists.mp (hd k (List.mem_cons_self k ks))
      have hanyfull : (existing ++ M ++ acc).any
          (fun r => decide (r.cslc_url = urlOf bucket k)) = false := by
        rw [hany]
        exact Bool.eq_false_iff.mpr hskip
      rcases @geomReuse_ctx G existing M acc e.burst_id g hMb hacc
        with hre | ⟨hre, hγg⟩
      · -- geometry reused: the appended row carries the canonical geometry
        have hstep : processKey fetch bucket e ⟨existing ++ M ++ acc, log⟩ k
            = Except.ok ⟨(existing ++ M ++ acc) ++
                [⟨e.burst_id, d, urlOf bucket k, none,
                  entryGeom existing e.burst_id g⟩], log⟩ := by
          unfold processKey
          rw [if_neg (by rw [show (⟨existing ++ M ++ acc, log⟩ : BuildState G).catalog
            = existing ++ M ++ acc from rfl, hanyfull]; exact Bool.false_ne_true)]
          rw [show dateOf k = some d from hdk]
          rw [show geomReuse (⟨existing ++ M ++ acc, log⟩ : BuildState G).catalog e.burst_id
            = some (entryGeom existing e.burst_id g) from hre]
        have haccrow : ∀ r ∈ acc ++ [⟨e.burst_id, d, urlOf bucket k, none,
            entryGeom existing e.burst_id g⟩], r.burst_id = e.burst_id ∧
            r.geometry = entryGeom existing e.burst_id g := by
          intro r hr
          rcases List.mem_append.mp hr with hr | hr
          · exact hacc r hr
          · rcases List.mem_singleton.mp hr with rfl
            exact ⟨rfl, rfl⟩
        obtain ⟨fl, hrest⟩ := ih M
          (acc ++ [⟨e.burst_id, d, urlOf bucket k, none,
            entryGeom existing e.burst_id g⟩]) log hf2 hd2 hMb hMu2 haccrow
        refine ⟨fl, ?_⟩
        rw [processKeys, hstep]
        show processKeys fetch bucket e
          ⟨(existing ++ M ++ acc) ++ [⟨e.burst_id, d, urlOf bucket k, none,
            entryGeom existing e.burst_id g⟩], log⟩ ks = _
        rw [show (existing ++ M ++ acc) ++
              [(⟨e.burst_id, d, urlOf bucket k, none,
                entryGeom existing e.burst_id g⟩ : Record G)]
            = existing ++ M ++ (acc ++
              [⟨e.burst_id, d, urlOf bucket k, none,
                entryGeom existing e.burst_id g⟩]) from (List.append_assoc _ _ _),
          hrest, newRowsAux, if_neg hskip, hdk]
        simp [List.append_assoc]
      · -- geometry fetched: fetch returns g, which is the canonical geometry here
        have hstep : processKey fetch bucket e ⟨existing ++ M ++ acc, log⟩ k
            = Except.ok ⟨(existing ++ M ++ acc) ++
                [⟨e.burst_id, d, urlOf bucket k, none, g⟩],
                log ++ [urlOf bucket k]⟩ := by
          unfold processKey
          rw [if_neg (by rw [show (⟨existing ++ M ++ acc, log⟩ : BuildState G).catalog
            = existing ++ M ++ acc from rfl, hanyfull]; exact Bool.false_ne_true)]
          rw [show dateOf k = some d from hdk]
          rw [show geomReuse (⟨existing ++ M ++ acc, log⟩ : BuildState G).catalog e.burst_id
            = none from hre]
          rw [hf k (List.mem_cons_self k ks)]
        have haccrow : ∀ r ∈ acc ++ [⟨e.burst_id, d, urlOf bucket k, none, g⟩],
            r.burst_id = e.burst_id ∧
            r.geometry = entryGeom existing e.burst_id g := by
          intro r hr
          rcases List.mem_append.mp hr with hr | hr
          · exact hacc r hr
          · rcases List.mem_singleton.mp hr with rfl
            exact ⟨rfl, hγg.symm⟩
        obtain ⟨fl, hrest⟩ := ih M
          (acc ++ [⟨e.burst_id, d, urlOf bucket k, none, g⟩])
          (log ++ [urlOf bucket k]) hf2 hd2 hMb hMu2 haccrow
        refine ⟨urlOf bucket k :: fl, ?_⟩
        rw [processKeys, hstep]
        show processKeys fetch bucket e
          ⟨(existing ++ M ++ acc) ++ [⟨e.burst_id, d, urlOf bucket k, none, g⟩],
            log ++ [urlOf bucket k]⟩ ks = _
        rw [show (existing ++ M ++ acc) ++
              [(⟨e.burst_id, d, urlOf bucket k, none, g⟩ : Record G)]
            = existing ++ M ++ (acc ++
              [⟨e.burst_id, d, urlOf bucket k, none, g⟩]) from (List.append_assoc _ _ _),
          hrest, newRowsAux, if_neg hskip, hdk]
        simp [hγg, List.append_assoc]

theorem mem_newRowsAux {G : Type} {bucket : String} {e : Entry} {γ : G}
    {existing : List (Record G)} :
    ∀ {ks : List String} {acc : List (Record G)} {r : Record G},
      r ∈ newRowsAux bucket e γ existing ks acc →
      r.burst_id = e.burst_id ∧ ∃ k ∈ ks, r.cslc_url = urlOf bucket k := by
  intro ks
  induction ks with
  | nil => intro acc r h; cases h
  | cons k ks ih =>
    intro acc r h
    rw [newRowsAux] at h
    by_cases hc : (existing ++ acc).any (fun x => decide (x.cslc_url = urlOf bucket k)) = true
    · rw [if_pos hc] at h
      obtain ⟨hb, k2, hk2, hu⟩ := ih h
      exact ⟨hb, k2, List.mem_cons_of_mem k hk2, hu⟩
    · rw [if_neg hc] at h
      rcases List.mem_cons.mp h with rfl | h
      · exact ⟨rfl, k, List.mem_cons_self k ks, rfl⟩
      · obtain ⟨hb, k2, hk2, hu⟩ := ih h
        exact ⟨hb, k2, List.mem_cons_of_mem k hk2, hu⟩

/-- The outer loop appends, after the loaded table and the foreign rows
`M`, exactly the concatenation of each entry's canonical rows — regardless
of how `M` came about — under the order-independence preconditions. -/
theorem runEntries_flat {G E : Type} (fetch : String → Except E G) (bucket : String)
    (listKeys : Entry → List String) (existing : List (Record G)) (gf : Entry → G) :
    ∀ (es : List Entry) (M : List (Record G)) (log : List String),
      (∀ e ∈ es, ∀ k ∈ listKeys e, fetch (urlOf bucket k) = Except.ok (gf e)) →
      (∀ e ∈ es, ∀ k ∈ listKeys e, (dateOf k).isSome) →
      List.Pairwise (fun e1 e2 => e1.burst_id ≠ e2.burst_id) es →
      List.Pairwise (fun e1 e2 => ∀ k1 ∈ listKeys e1, ∀ k2 ∈ listKeys e2,
        urlOf bucket k1 ≠ urlOf bucket k2) es →
      (∀ r ∈ M, ∀ e ∈ es, r.burst_id ≠ e.burst_id) →
      (∀ r ∈ M, ∀ e ∈ es, ∀ k ∈ listKeys e, r.cslc_url ≠ urlOf bucket k) →
      ∃ fl, runEntries fetch bucket listKeys ⟨existing ++ M, log⟩ es
          = Except.ok ⟨existing ++ M ++
              (es.map (fun e => newRowsAux bucket e
                (entryGeom existing e.burst_id (gf e)) existing (listKeys e) [])).flatten,
              log ++ fl⟩ := by
  intro es
  induction es with
  | nil =>
    intro M log _ _ _ _ _ _
    exact ⟨[], by simp [runEntries]⟩
  | cons e es ih =>
    intro M log hf hd hpb hpu hMb hMu
    obtain ⟨fl1, h1⟩ := processKeys_ctx fetch bucket e existing (gf e) (listKeys e)
      M [] log (hf e (List.mem_cons_self e es)) (hd e (List.mem_cons_self e es))
      (fun r hr => hMb r hr e (List.mem_cons_self e es))
      (fun r hr => hMu r hr e (List.mem_cons_self e es))
      (by intro r hr; cases hr)
    rw [List.append_nil] at h1
    have hBe : ∀ r ∈ newRowsAux bucket e (entryGeom existing e.burst_id (gf e))
        existing (listKeys e) [],
        r.burst_id = e.burst_id ∧ ∃ k ∈ listKeys e, r.cslc_url = urlOf bucket k :=
      fun r hr => mem_newRowsAux hr
    obtain ⟨fl2, h2⟩ := ih
      (M ++ newRowsAux bucket e (entryGeom existing e.burst_id (gf e))
        existing (listKeys e) []) (log ++ fl1)
      (fun e2 he2 => hf e2 (List.mem_cons_of_mem e he2))
      (fun e2 he2 => hd e2 (List.mem_cons_of_mem e he2))
      hpb.of_cons hpu.of_cons
      (by
        intro r hr e2 he2
        rcases List.mem_append.mp hr with hr | hr
        · exact hMb r hr e2 (List.mem_cons_of_mem e he2)
        · rw [(hBe r hr).1]
          exact (List.pairwise_cons.mp hpb).1 e2 he2)
      (by
        intro r hr e2 he2 k2 hk2
        rcases List.mem_append.mp hr with hr | hr
        · exact hMu r hr e2 (List.mem_cons_of_mem e he2) k2 hk2
        · obtain ⟨_, k1, hk1, hu1⟩ := hBe r hr
          rw [hu1]
          exact (List.pairwise_cons.mp hpu).1 e2 he2 k1 hk1 k2 hk2)
    refine ⟨fl1 ++ fl2, ?_⟩
    rw [runEntries]
    rw [show processEntry fetch bucket listKeys ⟨existing ++ M, log⟩ e
      = processKeys fetch bucket e ⟨existing ++ M, log⟩ (listKeys e) from rfl, h1]
    show runEntries fetch bucket listKeys
      ⟨existing ++ M ++ ([] ++ newRowsAux bucket e
        (entryGeom existing e.burst_id (gf e)) existing (listKeys e) []), log ++ fl1⟩ es
      = _
    rw [List.nil_append,
      show existing ++ M ++ newRowsAux bucket e
          (entryGeom existing e.burst_id (gf e)) existing (listKeys e) []
        = existing ++ (M ++ newRowsAux bucket e
          (entryGeom existing e.burst_id (gf e)) existing (listKeys e) [])
        from List.append_assoc _ _ _, h2]
    simp [List.append_assoc]

/-- If a row collection is partitioned into per-entry blocks whose rows
carry that entry's burst id, and the entries' burst ids are pairwise
distinct, then the first row matching any fixed `(burst_id, date)` key does
not depend on the order of the blocks. -/
theorem findByKey_flatten_perm {G : Type} (R : Entry → List (Record G))
    (hR : ∀ e, ∀ r ∈ R e, r.burst_id = e.burst_id) (kk : String × String) :
    ∀ {es1 es2 : List Entry}, List.Perm es1 es2 →
      List.Pairwise (fun a b => a.burst_id ≠ b.burst_id) es1 →
      findByKey kk (es1.map R).flatten = findByKey kk (es2.map R).flatten := by
  have hnone : ∀ e : Entry, kk.1 ≠ e.burst_id → findByKey kk (R e) = none := by
    intro e he
    unfold findByKey
    rw [List.find?_eq_none]
    intro r hr
    simp only [decide_eq_true_eq]
    intro hkey
    exact he (by rw [← hkey]; unfold recKey; simp [hR e r hr])
  intro es1 es2 hp
  induction hp with
  | nil => intro _; rfl
  | cons x hp ih =>
    intro hpw
    simp only [List.map_cons, List.flatten_cons]
    unfold findByKey
    rw [List.find?_append, List.find?_append]
    have := ih hpw.of_cons
    unfold findByKey at this
    rw [this]
  | swap a b l =>
    intro hpw
    have hab : b.burst_id ≠ a.burst_id := (List.pairwise_cons.mp hpw).1 a
      (List.mem_cons_self a l)
    simp only [List.map_cons, List.flatten_cons]
    unfold findByKey
    rw [List.find?_append, List.find?_append, List.find?_append, List.find?_append]
    by_cases hka : kk.1 = a.burst_id
    · have hbnone : findByKey kk (R b) = none :=
        hnone b (fun h => hab (by rw [← h, hka]))
      unfold findByKey at hbnone
      rw [hbnone]
      simp [Option.none_or, ← Option.or_assoc]
    · have hanone : findByKey kk (R a) = none := hnone a hka
      unfold findByKey at hanone
      rw [hanone]
      simp [Option.none_or, ← Option.or_assoc]
  | trans hp1 hp2 ih1 ih2 =>
    intro hpw
    exact (ih1 hpw).trans (ih2 ((List.Perm.pairwise_iff
      (fun hxy => fun h => hxy h.symm) hp1).mp hpw))

/-- If two row lists agree on "first row with key `kk`" for every `kk`,
their finalized tables are equal. -/
theorem finalize_eq_of_findByKey_eq {G : Type} {l1 l2 : List (Record G)}
    (h : ∀ kk, findByKey kk l1 = findByKey kk l2) : finalize l1 = finalize l2 := by
  have hmem : ∀ r : Record G, r ∈ dropDuplicates l1 ↔ r ∈ dropDuplicates l2 := by
    intro r
    rw [mem_dropDuplicates, mem_dropDuplicates, h (recKey r)]
  have hd1 := pairwise_key_dropDuplicates l1
  have hd2 := pairwise_key_dropDuplicates l2
  have hperm : List.Perm (dropDuplicates l1) (dropDuplicates l2) :=
    (List.perm_ext_iff_of_nodup (nodup_of_pairwise_key hd1)
      (nodup_of_pairwise_key hd2)).mpr hmem
  unfold finalize
  refine eq_of_perm_sorted_keyNodup ?_ (sorted_sortRecords _) (sorted_sortRecords _) ?_
  · exact ((perm_sortRecords _).trans hperm).trans (perm_sortRecords _).symm
  · exact (List.Perm.pairwise_iff (fun hxy => keyNe_symmetric hxy)
      (perm_sortRecords _)).mpr hd1

/-- Closed form of a whole run under the order-independence preconditions:
the output is the finalization of the loaded table followed by each
entry's canonical rows in seed order. -/
theorem buildCatalog_flat {G E : Type} (fetch : String → Except E G)
    (bucket : String) (listKeys : Entry → List String)
    (existing : List (Record G)) (gf : Entry → G) (es : List Entry)
    (hf : ∀ e ∈ es, ∀ k ∈ listKeys e, fetch (urlOf bucket k) = Except.ok (gf e))
    (hd : ∀ e ∈ es, ∀ k ∈ listKeys e, (dateOf k).isSome)
    (hpb : List.Pairwise (fun e1 e2 => e1.burst_id ≠ e2.burst_id) es)
    (hpu : List.Pairwise (fun e1 e2 => ∀ k1 ∈ listKeys e1, ∀ k2 ∈ listKeys e2,
      urlOf bucket k1 ≠ urlOf bucket k2) es) :
    buildCatalog fetch bucket listKeys es existing
      = Except.ok (finalize (existing ++
          (es.map (fun e => newRowsAux bucket e
            (entryGeom existing e.burst_id (gf e)) existing (listKeys e) [])).flatten)) := by
  obtain ⟨fl, h⟩ := runEntries_flat fetch bucket listKeys existing gf es [] []
    hf hd hpb hpu (fun r hr => absurd hr (List.not_mem_nil r))
    (fun r hr => absurd hr (List.not_mem_nil r))
  rw [List.append_nil] at h
  unfold buildCatalog
  rw [h]
  rfl

/-! ### Shared concrete inputs for witnesses and counterexamples -/

def exKey1 : String := "CSLC/x/20141015/a.h5"

def exKey2 : String := "CSLC/x/20141108/b.h5"

def exKeyA : String := "CSLC/y/20150101/c.h5"

def exEntA : Entry := ⟨"A", "n"⟩

def exEntB : Entry := ⟨"B", "n"⟩

/-- A geometry reader whose result identifies the URL it was given. -/
def exFetchUrl : String → Except Unit String := fun u => Except.ok u

/-- A geometry reader returning one constant polygon. -/
def exFetchConst : String → Except Unit String := fun _ => Except.ok "POLY"

/-- Listing collaborator: burst `B` has two timestamped keys, burst `A`
has one, with pairwise disjoint keys. -/
def exListAB : Entry → List String :=
  fun e => if e.burst_id = "B" then [exKey1, exKey2] else [exKeyA]

def exListOne : Entry → List String := fun _ => [exKey1]

/-- A key of burst `A` carrying the same date token as `exKey1`. -/
def exKeySame : String := "CSLC/y/20141015/c.h5"

/-- Listing collaborator giving bursts `A` and `B` one key each with the
same date token. -/
def exListSameDate : Entry → List String :=
  fun e => if e.burst_id = "B" then [exKey1] else [exKeySame]

/-- A pre-existing catalog row with key `(X, D)` and a URL unrelated to
any listing. -/
def exRecX2 : Record String := ⟨"X", "D", "s3://b/u2", none, "G"⟩

/-- A pre-existing catalog row with the same `(X, D)` key whose URL is the
one `exKey1` derives. -/
def exRecX1 : Record String := ⟨"X", "D", urlOf "b" exKey1, none, "G"⟩

/-- The row a run of the builder appends for `exEntB` and `exKey1` with
the constant geometry reader. -/
def exRowB : Record String :=
  ⟨"B", "20141015", urlOf "b" exKey1, none, "POLY"⟩

/-- A pre-existing catalog row of burst `B` carrying the same date token
as `exKey1` but a different object URL. -/
def exRecB0 : Record String := ⟨"B", "20141015", "s3://b/old.h5", none, "OLD"⟩

/-- When every key of the list derives a URL already present in the
working table, the inner loop is pure skipping: the state is unchanged. -/
theorem processKeys_skip_all {G E : Type} (fetch : String → Except E G)
    (bucket : String) (e : Entry) :
    ∀ (ks : List String) (st : BuildState G),
      (∀ k ∈ ks, urlOf bucket k ∈ st.catalog.map (fun r => r.cslc_url)) →
      processKeys fetch bucket e st ks = Except.ok st := by
  intro ks
  induction ks with
  | nil => intro st _; rfl
  | cons k ks ih =>
    intro st hall
    have hmem := hall k (List.mem_cons_self k ks)
    obtain ⟨r, hr, hru⟩ := List.mem_map.mp hmem
    have hany : st.catalog.any (fun r => decide (r.cslc_url = urlOf bucket k)) = true := by
      rw [List.any_eq_true]
      exact ⟨r, hr, by simp [hru]⟩
    have hstep : processKey fetch bucket e st k = Except.ok st := by
      unfold processKey
      rw [if_pos hany]
    rw [processKeys, hstep]
    show processKeys fetch bucket e st ks = _
    exact ih st (fun k2 hk2 => hall k2 (List.mem_cons_of_mem k hk2))

/-- When every listed key of every entry derives a URL already present in
the working table, the whole run leaves the state unchanged: nothing is
appended and nothing is fetched. -/
theorem runEntries_skip_all {G E : Type} (fetch : String → Except E G)
    (bucket : String) (listKeys : Entry → List String) :
    ∀ (es : List Entry) (st : BuildState G),
      (∀ e ∈ es, ∀ k ∈ listKeys e, urlOf bucket k ∈ st.catalog.map (fun r => r.cslc_url)) →
      runEntries fetch bucket listKeys st es = Except.ok st := by
  intro es
  induction es with
  | nil => intro st _; rfl
  | cons e es ih =>
    intro st hall
    have hstep : processEntry fetch bucket listKeys st e = Except.ok st :=
      processKeys_skip_all fetch bucket e (listKeys e) st
        (hall e (List.mem_cons_self e es))
    rw [runEntries, hstep]
    show runEntries fetch bucket listKeys st es = _
    exact ih st (fun e2 he2 => hall e2 (List.mem_cons_of_mem e he2))

/-! ### Claims -/

/-- C5 (counterexample): processing the same two seed entries in the two
possible orders, over an empty loaded table, with a geometry reader whose
result depends on the URL, produces different final catalogs.  Processing
burst `B` first puts its first row at dataframe index 0, which the
`idx_geo != False` test mistakes for "no match", so the second key of `B`
is re-fetched and receives a different geometry than when `B` is processed
second. -/
theorem c5_processing_order_counterexample :
    buildCatalog exFetchUrl "b" exListAB [exEntA, exEntB] []
      ≠ buildCatalog exFetchUrl "b" exListAB [exEntB, exEntA] [] := by
  decide

/-- C5 (amended): for every existing catalog, processing the partition
keys in any two orders produces the same final catalog, provided the seed
entries have pairwise distinct burst ids, their listings derive pairwise
distinct object URLs, every listed key has a well-formed (two-segment)
path, and the geometry fetch succeeds with one geometry per entry across
that entry's listed URLs. -/
theorem c5_processing_order_amended {G E : Type}
    (fetch : String → Except E G) (bucket : String) (listKeys : Entry → List String)
    (existing : List (Record G)) (gf : Entry → G) (es1 es2 : List Entry)
    (hperm : List.Perm es1 es2)
    (hf : ∀ e ∈ es1, ∀ k ∈ listKeys e, fetch (urlOf bucket k) = Except.ok (gf e))
    (hd : ∀ e ∈ es1, ∀ k ∈ listKeys e, (dateOf k).isSome)
    (hpb : List.Pairwise (fun e1 e2 => e1.burst_id ≠ e2.burst_id) es1)
    (hpu : List.Pairwise (fun e1 e2 => ∀ k1 ∈ listKeys e1, ∀ k2 ∈ listKeys e2,
      urlOf bucket k1 ≠ urlOf bucket k2) es1) :
    buildCatalog fetch bucket listKeys es1 existing
      = buildCatalog fetch bucket listKeys es2 existing := by
  have hf2 : ∀ e ∈ es2, ∀ k ∈ listKeys e, fetch (urlOf bucket k) = Except.ok (gf e) :=
    fun e he => hf e (hperm.mem_iff.mpr he)
  have hd2 : ∀ e ∈ es2, ∀ k ∈ listKeys e, (dateOf k).isSome :=
    fun e he => hd e (hperm.mem_iff.mpr he)
  have hpb2 : List.Pairwise (fun e1 e2 => e1.burst_id ≠ e2.burst_id) es2 :=
    (List.Perm.pairwise_iff (fun hxy => fun h => hxy h.symm) hperm).mp hpb
  have hpu2 : List.Pairwise (fun e1 e2 => ∀ k1 ∈ listKeys e1, ∀ k2 ∈ listKeys e2,
      urlOf bucket k1 ≠ urlOf bucket k2) es2 :=
    (List.Perm.pairwise_iff
      (fun hxy => fun k2 hk2 k1 hk1 => (hxy k1 hk1 k2 hk2).symm) hperm).mp hpu
  rw [buildCatalog_flat fetch bucket listKeys existing gf es1 hf hd hpb hpu,
    buildCatalog_flat fetch bucket listKeys existing gf es2 hf2 hd2 hpb2 hpu2]
  congr 1
  apply finalize_eq_of_findByKey_eq
  intro kk
  unfold findByKey
  rw [List.find?_append, List.find?_append]
  have := findByKey_flatten_perm
    (fun e => newRowsAux bucket e (entryGeom existing e.burst_id (gf e))
      existing (listKeys e) [])
    (fun e r hr => (mem_newRowsAux hr).1) kk hperm hpb
  unfold findByKey at this
  rw [this]

/-- C1 (code bug): with an empty loaded table and one partition key whose
listing yields two keys, the geometry reader is invoked twice — once per
key — although the claim (and the notebook's own comment "check if
geometry for burst already in df") promise at most one invocation per
partition key.  The first appended row lands at dataframe index 0, and
`idx_geo = next(iter(geom_check.index[geom_check]), False)` followed by
`if idx_geo != False:` treats a first match at index 0 as "no match"
because `0 != False` is `False` in Python. -/
theorem c1_geometry_fetched_twice :
    (runEntries exFetchConst "b" exListAB (⟨[], []⟩ : BuildState String)
        [exEntB]).map (fun st => st.fetched)
      = Except.ok [urlOf "b" exKey1, urlOf "b" exKey2] := by
  decide

/-- C2 (counterexample): when the first run's input catalog holds two rows
with the same `(burst_id, date)` key, the first run's dedup drops the row
whose URL the listing derives, so the second run — against the first run's
output and an unchanged remote — appends a new row and returns a catalog
different from the first run's output. -/
theorem c2_idempotence_counterexample :
    buildCatalog exFetchUrl "b" exListOne [exEntB] [exRecX2, exRecX1]
        = Except.ok [exRecX2] ∧
      buildCatalog exFetchUrl "b" exListOne [exEntB] [exRecX2]
        ≠ Except.ok [exRecX2] := by
  decide

/-- C2 (amended): if every listed key's derived object URL already appears
in the `cslc_url` column of the first run's output catalog, then the
second run against that catalog skips every key — no row is appended and
no geometry fetch occurs — and returns the catalog unchanged. -/
theorem c2_idempotence_amended {G E : Type} (fetch : String → Except E G)
    (bucket : String) (listKeys : Entry → List String) (es : List Entry)
    (existing out : List (Record G))
    (hrun : buildCatalog fetch bucket listKeys es existing = Except.ok out)
    (hall : ∀ e ∈ es, ∀ k ∈ listKeys e,
      urlOf bucket k ∈ out.map (fun r => r.cslc_url)) :
    buildCatalog fetch bucket listKeys es out = Except.ok out ∧
      runEntries fetch bucket listKeys ⟨out, []⟩ es = Except.ok ⟨out, []⟩ := by
  have hskip : runEntries fetch bucket listKeys (⟨out, []⟩ : BuildState G) es
      = Except.ok ⟨out, []⟩ :=
    runEntries_skip_all fetch bucket listKeys es ⟨out, []⟩ hall
  have hout : ∃ st, runEntries fetch bucket listKeys
      (⟨existing, []⟩ : BuildState G) es = Except.ok st ∧ finalize st.catalog = out := by
    unfold buildCatalog at hrun
    cases hre : runEntries fetch bucket listKeys (⟨existing, []⟩ : BuildState G) es with
    | error e => rw [hre] at hrun; cases hrun
    | ok st =>
      rw [hre] at hrun
      exact ⟨st, rfl, by injection hrun⟩
  obtain ⟨st, _, hfin⟩ := hout
  have hfix : finalize out = out := by
    rw [← hfin, finalize_idem]
  refine ⟨?_, hskip⟩
  unfold buildCatalog
  rw [hskip]
  show Except.ok (finalize out) = Except.ok out
  rw [hfix]

/-- C2 (witness): a first run over the empty table appends one row for
burst `B`; its URL is listed again in the second run, which therefore
changes nothing. -/
theorem c2_idempotence_witness :
    buildCatalog exFetchConst "b" exListOne [exEntB] [] = Except.ok [exRowB] ∧
    (∀ e ∈ [exEntB], ∀ k ∈ exListOne e,
      urlOf "b" k ∈ [exRowB].map (fun r => r.cslc_url)) ∧
    (buildCatalog exFetchConst "b" exListOne [exEntB] [exRowB]
        = Except.ok [exRowB] ∧
      runEntries exFetchConst "b" exListOne ⟨[exRowB], []⟩ [exEntB]
        = Except.ok ⟨[exRowB], []⟩) :=
  ⟨by decide, by decide,
    c2_idempotence_amended exFetchConst "b" exListOne [exEntB] [] [exRowB]
      (by decide) (by decide)⟩

/-- C3 (confirmed): the catalog returned at the end of every run has at
most one record per `(burst_id, date)` pair, and every key present in the
working table before the final dedup — in particular records of distinct
bursts sharing a timestamp token — is still represented afterwards, so
uniqueness is keyed on the pair, not on the timestamp alone. -/
theorem c3_key_uniqueness {G E : Type} (fetch : String → Except E G)
    (bucket : String) (listKeys : Entry → List String) (es : List Entry)
    (existing : List (Record G)) (out : List (Record G)) (st : BuildState G)
    (hok : buildCatalog fetch bucket listKeys es existing = Except.ok out)
    (hst : runEntries fetch bucket listKeys (⟨existing, []⟩ : BuildState G) es
      = Except.ok st) :
    List.Pairwise (fun a b => recKey a ≠ recKey b) out ∧
      ∀ r ∈ st.catalog, ∃ y ∈ out, recKey y = recKey r := by
  have hout : finalize st.catalog = out := by
    unfold buildCatalog at hok
    rw [hst] at hok
    injection hok
  subst hout
  exact ⟨pairwise_key_finalize st.catalog, fun r hr => key_surj_finalize hr⟩

/-- C3 (witness): two bursts with the same date token both survive, and
the output keys are pairwise distinct. -/
theorem c3_key_uniqueness_witness :
    buildCatalog exFetchConst "b" exListSameDate [exEntA, exEntB] []
        = Except.ok [⟨"A", "20141015", urlOf "b" exKeySame, none, "POLY"⟩,
          ⟨"B", "20141015", urlOf "b" exKey1, none, "POLY"⟩] ∧
    runEntries exFetchConst "b" exListSameDate ⟨[], []⟩ [exEntA, exEntB]
        = Except.ok ⟨[⟨"A", "20141015", urlOf "b" exKeySame, none, "POLY"⟩,
            ⟨"B", "20141015", urlOf "b" exKey1, none, "POLY"⟩],
          [urlOf "b" exKeySame, urlOf "b" exKey1]⟩ ∧
    (List.Pairwise (fun a b => recKey a ≠ recKey b)
        [(⟨"A", "20141015", urlOf "b" exKeySame, none, "POLY"⟩ : Record String),
          ⟨"B", "20141015", urlOf "b" exKey1, none, "POLY"⟩] ∧
      ∀ r ∈ [(⟨"A", "20141015", urlOf "b" exKeySame, none, "POLY"⟩ : Record String),
          ⟨"B", "20141015", urlOf "b" exKey1, none, "POLY"⟩],
        ∃ y ∈ [(⟨"A", "20141015", urlOf "b" exKeySame, none, "POLY"⟩ : Record String),
          ⟨"B", "20141015", urlOf "b" exKey1, none, "POLY"⟩], recKey y = recKey r) :=
  ⟨by decide, by decide,
    c3_key_uniqueness exFetchConst "b" exListSameDate [exEntA, exEntB] []
      [⟨"A", "20141015", urlOf "b" exKeySame, none, "POLY"⟩,
        ⟨"B", "20141015", urlOf "b" exKey1, none, "POLY"⟩]
      ⟨[⟨"A", "20141015", urlOf "b" exKeySame, none, "POLY"⟩,
          ⟨"B", "20141015", urlOf "b" exKey1, none, "POLY"⟩],
        [urlOf "b" exKeySame, urlOf "b" exKey1]⟩
      (by decide) (by decide)⟩

/-- C4 (confirmed): the catalog returned at the end of every run is sorted
ascending by `(burst_id, date)`, and re-sorting it by that key leaves it
unchanged. -/
theorem c4_sorted_output {G E : Type} (fetch : String → Except E G)
    (bucket : String) (listKeys : Entry → List String) (es : List Entry)
    (existing : List (Record G)) (out : List (Record G))
    (hok : buildCatalog fetch bucket listKeys es existing = Except.ok out) :
    List.Sorted recLE out ∧ sortRecords out = out := by
  have hout : ∃ st, out = finalize (BuildState.catalog st) := by
    unfold buildCatalog at hok
    cases hre : runEntries fetch bucket listKeys (⟨existing, []⟩ : BuildState G) es with
    | error e => rw [hre] at hok; cases hok
    | ok st =>
      rw [hre] at hok
      exact ⟨st, by injection hok with h; exact h.symm⟩
  obtain ⟨st, rfl⟩ := hout
  exact ⟨sorted_finalize _, sortRecords_finalize _⟩

/-- C4 (witness): the sorted-output invariant at a concrete two-burst run
(the listing returns burst B's keys in reverse date order, the output is
sorted and a fixed point of the sort). -/
theorem c4_sorted_output_witness :
    buildCatalog exFetchConst "b" exListAB [exEntB, exEntA] []
        = Except.ok [⟨"A", "20150101", urlOf "b" exKeyA, none, "POLY"⟩,
          ⟨"B", "20141015", urlOf "b" exKey1, none, "POLY"⟩,
          ⟨"B", "20141108", urlOf "b" exKey2, none, "POLY"⟩] ∧
    (List.Sorted recLE [(⟨"A", "20150101", urlOf "b" exKeyA, none, "POLY"⟩ : Record String),
        ⟨"B", "20141015", urlOf "b" exKey1, none, "POLY"⟩,
        ⟨"B", "20141108", urlOf "b" exKey2, none, "POLY"⟩] ∧
      sortRecords [(⟨"A", "20150101", urlOf "b" exKeyA, none, "POLY"⟩ : Record String),
          ⟨"B", "20141015", urlOf "b" exKey1, none, "POLY"⟩,
          ⟨"B", "20141108", urlOf "b" exKey2, none, "POLY"⟩]
        = [⟨"A", "20150101", urlOf "b" exKeyA, none, "POLY"⟩,
          ⟨"B", "20141015", urlOf "b" exKey1, none, "POLY"⟩,
          ⟨"B", "20141108", urlOf "b" exKey2, none, "POLY"⟩]) :=
  ⟨by decide,
    c4_sorted_output exFetchConst "b" exListAB [exEntB, exEntA] [] _ (by decide)⟩

/-- C5 (witness): the amended statement applied to two seed entries with
distinct bursts, disjoint listings and a constant geometry reader. -/
theorem c5_processing_order_witness :
    List.Perm [exEntA, exEntB] [exEntB, exEntA] ∧
    (∀ e ∈ [exEntA, exEntB], ∀ k ∈ exListAB e,
      exFetchConst (urlOf "b" k) = Except.ok "POLY") ∧
    (∀ e ∈ [exEntA, exEntB], ∀ k ∈ exListAB e, (dateOf k).isSome) ∧
    List.Pairwise (fun e1 e2 : Entry => e1.burst_id ≠ e2.burst_id) [exEntA, exEntB] ∧
    List.Pairwise (fun e1 e2 => ∀ k1 ∈ exListAB e1, ∀ k2 ∈ exListAB e2,
      urlOf "b" k1 ≠ urlOf "b" k2) [exEntA, exEntB] ∧
    buildCatalog exFetchConst "b" exListAB [exEntA, exEntB] []
      = buildCatalog exFetchConst "b" exListAB [exEntB, exEntA] [] :=
  ⟨by decide, by decide, by decide, by decide, by decide,
    c5_processing_order_amended exFetchConst "b" exListAB []
      (fun _ => "POLY") [exEntA, exEntB] [exEntB, exEntA]
      (by decide) (by decide) (by decide) (by decide) (by decide)⟩

/-- C6 (confirmed): when fetching or decoding the geometry for a key
fails, the error propagates to the caller and aborts the run — the script
returns the fetch error, no record is appended for that key, and the
persisted catalog is left exactly as it was (`to_csv` is never reached),
so no record with a missing or placeholder geometry is ever emitted. -/
theorem c6_fetch_error_aborts {G E : Type} (fetch : String → Except E G)
    (bucket : String) (listKeys : Entry → List String)
    (e0 : Entry) (es : List Entry) (k : String) (ks : List String)
    (d : String) (err : E) (persisted : Option (List (Record G)))
    (hkeys : listKeys e0 = k :: ks)
    (hnew : ∀ r ∈ persisted.getD [], r.cslc_url ≠ urlOf bucket k)
    (hnoreuse : geomReuse (persisted.getD []) e0.burst_id = none)
    (hdate : dateOf k = some d)
    (hfail : fetch (urlOf bucket k) = Except.error err) :
    runScript fetch bucket listKeys (some (e0 :: es)) persisted
        = (Except.error (ScriptError.build (BuildError.fetchFailed err)), []) ∧
      persistedAfter persisted
        (runScript fetch bucket listKeys (some (e0 :: es)) persisted).1
        = persisted := by
  have hany : (persisted.getD []).any
      (fun r => decide (r.cslc_url = urlOf bucket k)) = false := by
    rw [List.any_eq_false]
    intro r hr
    simpa using hnew r hr
  have hstep : processKey fetch bucket e0
      (⟨persisted.getD [], []⟩ : BuildState G) k
      = Except.error (BuildError.fetchFailed err) := by
    unfold processKey
    rw [if_neg (by rw [show (⟨persisted.getD [], []⟩ : BuildState G).catalog
      = persisted.getD [] from rfl, hany]; exact Bool.false_ne_true)]
    rw [hdate]
    rw [show geomReuse (⟨persisted.getD [], []⟩ : BuildState G).catalog e0.burst_id
      = none from hnoreuse]
    rw [hfail]
  have hrun : runEntries fetch bucket listKeys
      (⟨persisted.getD [], []⟩ : BuildState G) (e0 :: es)
      = Except.error (BuildError.fetchFailed err) := by
    rw [runEntries,
      show processEntry fetch bucket listKeys
          (⟨persisted.getD [], []⟩ : BuildState G) e0
        = processKeys fetch bucket e0
          (⟨persisted.getD [], []⟩ : BuildState G) (listKeys e0) from rfl,
      hkeys, processKeys, hstep]
  have hscript : runScript fetch bucket listKeys (some (e0 :: es)) persisted
      = (Except.error (ScriptError.build (BuildError.fetchFailed err)), []) := by
    show (match runEntries fetch bucket listKeys
        (⟨persisted.getD [], []⟩ : BuildState G) (e0 :: es) with
      | Except.error e2 => (Except.error (ScriptError.build e2), ([] : List String))
      | Except.ok st => (Except.ok (finalize st.catalog), st.fetched)) = _
    rw [hrun]
  refine ⟨hscript, ?_⟩
  rw [hscript]
  rfl

/-- C6 (witness): the abort at a concrete input — an always-failing
reader, a one-key listing, a persisted table that does not contain the
key's URL or burst. -/
theorem c6_fetch_error_aborts_witness :
    exListOne exEntB = exKey1 :: [] ∧
    (∀ r ∈ (some [exRecX2] : Option (List (Record String))).getD [],
      r.cslc_url ≠ urlOf "b" exKey1) ∧
    geomReuse ((some [exRecX2] : Option (List (Record String))).getD [])
      exEntB.burst_id = none ∧
    dateOf exKey1 = some "20141015" ∧
    (fun _ : String => (Except.error () : Except Unit String)) (urlOf "b" exKey1)
      = Except.error () ∧
    (runScript (fun _ => Except.error ()) "b" exListOne (some [exEntB])
        (some [exRecX2])
      = (Except.error (ScriptError.build (BuildError.fetchFailed ())), []) ∧
    persistedAfter (some [exRecX2])
        (runScript (fun _ => Except.error ()) "b" exListOne (some [exEntB])
          (some [exRecX2])).1
      = some [exRecX2]) :=
  ⟨by decide, by decide, by decide, by decide, by decide,
    c6_fetch_error_aborts (fun _ => Except.error ()) "b" exListOne exEntB []
      exKey1 [] "20141015" () (some [exRecX2])
      (by decide) (by decide) (by decide) (by decide) (by decide)⟩

/-- C7 (confirmed): when the partition-key seed file is absent, the run
reports the fatal configuration error with an empty fetch trace, leaves
the persisted catalog untouched, and its outcome does not depend on the
listing or geometry collaborators at all — no listing call or geometry
fetch can have occurred. -/
theorem c7_missing_seed_fatal {G E : Type} (bucket : String)
    (fetch1 fetch2 : String → Except E G) (lk1 lk2 : Entry → List String)
    (persisted : Option (List (Record G))) :
    runScript fetch1 bucket lk1 none persisted
        = (Except.error ScriptError.seedMissing, []) ∧
      persistedAfter persisted (runScript fetch1 bucket lk1 none persisted).1
        = persisted ∧
      runScript fetch1 bucket lk1 none persisted
        = runScript fetch2 bucket lk2 none persisted :=
  ⟨rfl, rfl, rfl⟩

/-- C8 (confirmed): the key generator over any finite sequence of listing
responses (it is total, hence terminating): every yielded key ends with
the requested suffix; a first response without contents yields zero keys
rather than an error; a response without a continuation token ends the
drain, the keys being independent of any later responses; and a response
with a continuation token contributes its page and passes the cursor
forward into the rest. -/
theorem c8_listing_drain (suffix burst_id version_num : String) :
    (∀ (pages : List S3Page) (k : String),
        k ∈ get_matching_s3_keys pages suffix burst_id version_num →
        strEndsWith k suffix = true) ∧
    (∀ (rest : List S3Page) (tok : Option String),
        get_matching_s3_keys (⟨none, tok⟩ :: rest) suffix burst_id version_num = []) ∧
    (∀ (rest : List S3Page) (objs : List S3Object),
        get_matching_s3_keys (⟨some objs, none⟩ :: rest) suffix burst_id version_num
          = pageKeys objs suffix) ∧
    (∀ (rest : List S3Page) (objs : List S3Object) (t : String),
        get_matching_s3_keys (⟨some objs, some t⟩ :: rest) suffix burst_id version_num
          = pageKeys objs suffix
            ++ get_matching_s3_keys rest suffix burst_id version_num) := by
  refine ⟨?_, fun _ _ => rfl, fun _ _ => rfl, fun _ _ _ => rfl⟩
  intro pages
  induction pages with
  | nil => intro k h; cases h
  | cons p rest ih =>
    intro k h
    rw [get_matching_s3_keys] at h
    rcases p with ⟨contents, tok⟩
    cases contents with
    | none => cases h
    | some objs =>
      cases tok with
      | none =>
        exact (List.mem_filter.mp h).2
      | some t =>
        rcases List.mem_append.mp h with h | h
        · exact (List.mem_filter.mp h).2
        · exact ih k h

/-- C8 (witness): a two-page drain — the first page passes its token
forward, the second ends the listing; a contents-less first page yields
nothing; every yielded key carries the suffix. -/
theorem c8_listing_drain_witness :
    ("p/20141015/a.h5" ∈ get_matching_s3_keys
        [⟨some [⟨"p/20141015/a.h5", 5⟩, ⟨"p/20141015/b.txt", 3⟩], some "t"⟩,
          ⟨some [⟨"p/20141108/c.h5", 7⟩], none⟩] ".h5" "B" "1.0") ∧
    strEndsWith "p/20141015/a.h5" ".h5" = true ∧
    get_matching_s3_keys [(⟨none, some "t"⟩ : S3Page)] ".h5" "B" "1.0" = [] ∧
    get_matching_s3_keys
        [(⟨some [⟨"p/20141108/c.h5", 7⟩], none⟩ : S3Page), ⟨none, none⟩]
        ".h5" "B" "1.0"
      = pageKeys [⟨"p/20141108/c.h5", 7⟩] ".h5" ∧
    get_matching_s3_keys
        [⟨some [⟨"p/20141015/a.h5", 5⟩, ⟨"p/20141015/b.txt", 3⟩], some "t"⟩,
          ⟨some [⟨"p/20141108/c.h5", 7⟩], none⟩] ".h5" "B" "1.0"
      = pageKeys [⟨"p/20141015/a.h5", 5⟩, ⟨"p/20141015/b.txt", 3⟩] ".h5"
        ++ get_matching_s3_keys [⟨some [⟨"p/20141108/c.h5", 7⟩], none⟩]
          ".h5" "B" "1.0" :=
  ⟨by decide,
    (c8_listing_drain ".h5" "B" "1.0").1
      [⟨some [⟨"p/20141015/a.h5", 5⟩, ⟨"p/20141015/b.txt", 3⟩], some "t"⟩,
        ⟨some [⟨"p/20141108/c.h5", 7⟩], none⟩] "p/20141015/a.h5" (by decide),
    (c8_listing_drain ".h5" "B" "1.0").2.1 [] (some "t"),
    (c8_listing_drain ".h5" "B" "1.0").2.2.1 [⟨none, none⟩] _,
    (c8_listing_drain ".h5" "B" "1.0").2.2.2 _ _ "t"⟩

/-- C9 (confirmed): the sequence of keys yielded by
`get_matching_s3_keys` does not depend on its `version_num` argument: the
parameter is accepted and documented as a filter but never used. -/
theorem c9_version_num_unused (pages : List S3Page)
    (suffix burst_id v1 v2 : String) :
    get_matching_s3_keys pages suffix burst_id v1
      = get_matching_s3_keys pages suffix burst_id v2 := by
  induction pages with
  | nil => rfl
  | cons p rest ih =>
    rcases p with ⟨contents, tok⟩
    cases contents with
    | none => rfl
    | some objs =>
      cases tok with
      | none => rfl
      | some t =>
        rw [get_matching_s3_keys, get_matching_s3_keys, ih]

/-- C10 (confirmed): when a newly listed key carries the same
`(burst_id, date)` as a record already in the loaded catalog but a
different object URL, the URL-based skip does not catch it — a row is
appended during the run — and the final keep-first duplicate removal then
drops it again: a pre-existing record with that key, not the newly listed
row, survives in the output. -/
theorem c10_url_change_keeps_existing {G E : Type} (fetch : String → Except E G)
    (bucket : String) (listKeys : Entry → List String) (e : Entry) (k : String)
    (existing : List (Record G)) (r0 : Record G) (d : String) (g : G)
    (hkeys : listKeys e = [k])
    (hr0 : r0 ∈ existing)
    (hkey0 : recKey r0 = (e.burst_id, d))
    (hdate : dateOf k = some d)
    (hfresh : ∀ r ∈ existing, r.cslc_url ≠ urlOf bucket k)
    (hfetch : fetch (urlOf bucket k) = Except.ok g) :
    ∃ (row : Record G) (fl : List String) (out : List (Record G)),
      runEntries fetch bucket listKeys (⟨existing, []⟩ : BuildState G) [e]
          = Except.ok ⟨existing ++ [row], fl⟩ ∧
      row.burst_id = e.burst_id ∧ row.date = d ∧
      row.cslc_url = urlOf bucket k ∧
      buildCatalog fetch bucket listKeys [e] existing = Except.ok out ∧
      (∀ y ∈ out, y.cslc_url ≠ urlOf bucket k) ∧
      ∃ y ∈ existing, y ∈ out ∧ recKey y = (e.burst_id, d) := by
  have hany : existing.any (fun r => decide (r.cslc_url = urlOf bucket k)) = false := by
    rw [List.any_eq_false]
    intro r hr
    simpa using hfresh r hr
  -- the per-key step appends one row, fetching or reusing its geometry
  have hstep : ∃ (gg : G) (fl : List String),
      processKey fetch bucket e (⟨existing, []⟩ : BuildState G) k
        = Except.ok ⟨existing ++ [⟨e.burst_id, d, urlOf bucket k, none, gg⟩], fl⟩ := by
    cases hg : geomReuse existing e.burst_id with
    | some g0 =>
      refine ⟨g0, [], ?_⟩
      unfold processKey
      rw [if_neg (by rw [show (⟨existing, []⟩ : BuildState G).catalog = existing
        from rfl, hany]; exact Bool.false_ne_true)]
      rw [hdate]
      rw [show geomReuse (⟨existing, []⟩ : BuildState G).catalog e.burst_id
        = some g0 from hg]
    | none =>
      refine ⟨g, [urlOf bucket k], ?_⟩
      unfold processKey
      rw [if_neg (by rw [show (⟨existing, []⟩ : BuildState G).catalog = existing
        from rfl, hany]; exact Bool.false_ne_true)]
      rw [hdate]
      rw [show geomReuse (⟨existing, []⟩ : BuildState G).catalog e.burst_id
        = none from hg]
      rw [hfetch]
      rfl
  obtain ⟨gg, fl, hstep⟩ := hstep
  have hrun : runEntries fetch bucket listKeys (⟨existing, []⟩ : BuildState G) [e]
      = Except.ok ⟨existing ++ [⟨e.burst_id, d, urlOf bucket k, none, gg⟩], fl⟩ := by
    rw [runEntries,
      show processEntry fetch bucket listKeys (⟨existing, []⟩ : BuildState G) e
        = processKeys fetch bucket e (⟨existing, []⟩ : BuildState G) (listKeys e)
        from rfl,
      hkeys, processKeys, hstep]
    rfl
  -- the first record carrying the key (e.burst_id, d) sits in `existing`
  have hfind : ∃ y0, (existing.find?
      (fun r => decide (recKey r = (e.burst_id, d)))) = some y0 := by
    apply Option.isSome_iff_exists.mp
    rw [List.find?_isSome]
    exact ⟨r0, hr0, by simp [hkey0]⟩
  obtain ⟨y0, hy0⟩ := hfind
  have hy0mem : y0 ∈ existing := List.mem_of_find?_eq_some hy0
  have hy0key : recKey y0 = (e.burst_id, d) := by
    have := List.find?_some hy0
    simpa using this
  have hrowkey : recKey (⟨e.burst_id, d, urlOf bucket k, none, gg⟩ : Record G)
      = (e.burst_id, d) := rfl
  have hfbk : ∀ kk, kk = (e.burst_id, d) →
      findByKey kk (existing ++ [⟨e.burst_id, d, urlOf bucket k, none, gg⟩])
        = some y0 := by
    intro kk hkk
    unfold findByKey
    rw [List.find?_append, hkk, hy0]
    rfl
  refine ⟨⟨e.burst_id, d, urlOf bucket k, none, gg⟩, fl,
    finalize (existing ++ [⟨e.burst_id, d, urlOf bucket k, none, gg⟩]),
    hrun, rfl, rfl, rfl, ?_, ?_, ?_⟩
  · unfold buildCatalog
    rw [hrun]
    rfl
  · intro y hy
    have hy2 := mem_finalize_iff.mp hy
    have hymem : y ∈ existing ++ [⟨e.burst_id, d, urlOf bucket k, none, gg⟩] := by
      have := mem_dropDuplicates.mp hy2
      exact List.mem_of_find?_eq_some this
    rcases List.mem_append.mp hymem with hmem | hmem
    · exact hfresh y hmem
    · rcases List.mem_singleton.mp hmem with rfl
      -- the appended row itself does not survive the keep-first dedup
      have := mem_dropDuplicates.mp hy2
      rw [hfbk _ hrowkey] at this
      have hyne : y0 ≠ (⟨e.burst_id, d, urlOf bucket k, none, gg⟩ : Record G) := by
        intro hcontra
        exact hfresh y0 hy0mem (by rw [hcontra])
      injection this with h2
      exact absurd h2 hyne
  · refine ⟨y0, hy0mem, ?_, hy0key⟩
    rw [mem_finalize_iff, mem_dropDuplicates]
    exact hfbk (recKey y0) hy0key

/-- C10 (witness): burst `B` already has a `20141015` record under an old
URL; the newly listed key with the same date and a fresh URL is appended
during the run, but only the pre-existing record survives finalization. -/
theorem c10_url_change_keeps_existing_witness :
    exListOne exEntB = [exKey1] ∧
    exRecB0 ∈ [exRecB0] ∧
    recKey exRecB0 = (exEntB.burst_id, "20141015") ∧
    dateOf exKey1 = some "20141015" ∧
    (∀ r ∈ [exRecB0], r.cslc_url ≠ urlOf "b" exKey1) ∧
    exFetchConst (urlOf "b" exKey1) = Except.ok "POLY" ∧
    (∃ (row : Record String) (fl : List String) (out : List (Record String)),
      runEntries exFetchConst "b" exListOne
          (⟨[exRecB0], []⟩ : BuildState String) [exEntB]
          = Except.ok ⟨[exRecB0] ++ [row], fl⟩ ∧
        row.burst_id = exEntB.burst_id ∧ row.date = "20141015" ∧
        row.cslc_url = urlOf "b" exKey1 ∧
        buildCatalog exFetchConst "b" exListOne [exEntB] [exRecB0]
          = Except.ok out ∧
        (∀ y ∈ out, y.cslc_url ≠ urlOf "b" exKey1) ∧
        ∃ y ∈ [exRecB0], y ∈ out ∧ recKey y = (exEntB.burst_id, "20141015")) :=
  ⟨by decide, by decide, by decide, by decide, by decide, by decide,
    c10_url_change_keeps_existing exFetchConst "b" exListOne exEntB exKey1
      [exRecB0] exRecB0 "20141015" "POLY"
      (by decide) (by decide) (by decide) (by decide) (by decide) (by decide)⟩

end CSLC
